import Mathlib

/-!
Verification of the decision-tool wizard core
(frontend/decision-tool/src/App.tsx).

The embedding translates the TypeScript state-management functions of the
wizard into pure Lean functions.  JavaScript numbers are idealized as exact
rationals wherever the program only ever produces finite values; the places
where JavaScript arithmetic can step outside the finite numbers (division by
zero, multiplication of zero by Infinity) are modelled explicitly with the
JSNum type below, which distinguishes finite values, NaN and the two
infinities.  Array.prototype.sort with a numeric comparator is modelled as a
stable insertion sort: since ES2019 the built-in sort is required to be
stable, and a stable sort with respect to a total preorder has a unique
result, so any stable sorting algorithm is a faithful model when the
comparator is consistent (all keys finite).  All theorems that depend on the
sort restrict themselves to that consistent case.
-/

namespace DecisionTool

/-- Model of a JavaScript number as produced by the arithmetic in this
program: either a finite value (idealized as an exact rational, since the
program applies no rounding of its own), NaN, or one of the two infinities. -/
inductive JSNum where
  | num (q : ℚ)
  | nan
  | inf
  | neginf
deriving DecidableEq

/-- JavaScript division of two finite numbers: finite quotient when the
divisor is nonzero, otherwise NaN for 0/0 and a signed infinity for x/0. -/
def jsDiv (a b : ℚ) : JSNum :=
  if b ≠ 0 then JSNum.num (a / b)
  else if a = 0 then JSNum.nan
  else if 0 < a then JSNum.inf
  else JSNum.neginf

/-- JavaScript multiplication on JSNum values.  NaN propagates; zero times
an infinity is NaN; otherwise infinities keep the sign of the product. -/
def jsMul : JSNum → JSNum → JSNum
  | JSNum.nan, _ => JSNum.nan
  | _, JSNum.nan => JSNum.nan
  | JSNum.num a, JSNum.num b => JSNum.num (a * b)
  | JSNum.num a, JSNum.inf =>
      if a = 0 then JSNum.nan else if 0 < a then JSNum.inf else JSNum.neginf
  | JSNum.num a, JSNum.neginf =>
      if a = 0 then JSNum.nan else if 0 < a then JSNum.neginf else JSNum.inf
  | JSNum.inf, JSNum.num b =>
      if b = 0 then JSNum.nan else if 0 < b then JSNum.inf else JSNum.neginf
  | JSNum.neginf, JSNum.num b =>
      if b = 0 then JSNum.nan else if 0 < b then JSNum.neginf else JSNum.inf
  | JSNum.inf, JSNum.inf => JSNum.inf
  | JSNum.inf, JSNum.neginf => JSNum.neginf
  | JSNum.neginf, JSNum.inf => JSNum.neginf
  | JSNum.neginf, JSNum.neginf => JSNum.inf

/-- JavaScript subtraction on JSNum values.  NaN propagates; an infinity
minus itself is NaN. -/
def jsSub : JSNum → JSNum → JSNum
  | JSNum.nan, _ => JSNum.nan
  | _, JSNum.nan => JSNum.nan
  | JSNum.num a, JSNum.num b => JSNum.num (a - b)
  | JSNum.num _, JSNum.inf => JSNum.neginf
  | JSNum.num _, JSNum.neginf => JSNum.inf
  | JSNum.inf, JSNum.num _ => JSNum.inf
  | JSNum.neginf, JSNum.num _ => JSNum.neginf
  | JSNum.inf, JSNum.inf => JSNum.nan
  | JSNum.inf, JSNum.neginf => JSNum.inf
  | JSNum.neginf, JSNum.inf => JSNum.neginf
  | JSNum.neginf, JSNum.neginf => JSNum.nan

/-- Greater-or-equal comparison on JSNum, following the JavaScript rules:
every comparison involving NaN is false; Infinity is at least everything;
negative Infinity is at least only itself. -/
def jsGe : JSNum → JSNum → Bool
  | JSNum.num a, JSNum.num b => decide (b ≤ a)
  | JSNum.num _, JSNum.inf => false
  | JSNum.num _, JSNum.neginf => true
  | JSNum.inf, _ => true
  | JSNum.neginf, JSNum.neginf => true
  | JSNum.neginf, _ => false
  | JSNum.nan, _ => false
  | _, JSNum.nan => false

/- ### Stable sort

Model of Array.prototype.sort with a consistent comparator: a stable
insertion sort.  The argument le a b is true when a may come before b,
that is, when comparator a b is at most zero. -/

/-- Insert an element in front of the first list element it may precede. -/
def insortLe {α : Type} (le : α → α → Bool) (a : α) : List α → List α
  | [] => [a]
  | x :: xs => if le a x then a :: x :: xs else x :: insortLe le a xs

/-- Stable insertion sort; later list elements are inserted first, so an
earlier element with an equal key ends up before them. -/
def stableSort {α : Type} (le : α → α → Bool) (l : List α) : List α :=
  l.foldr (insortLe le) []

/-- Variant of List.map that also passes the element index, starting the
count at k; models the two-argument callback of Array.prototype.map. -/
def mapIdxFrom {α β : Type} (k : ℕ) (f : ℕ → α → β) : List α → List β
  | [] => []
  | a :: as => f k a :: mapIdxFrom (k + 1) f as

/- ### Data model (the interfaces at the top of App.tsx) -/

/-- Interface Option of App.tsx (named DOption here because Option is taken
by the Lean prelude): identifier and display name.  Identifiers are the
millisecond timestamps returned by Date.now, modelled as naturals. -/
structure DOption where
  id : ℕ
  name : String
deriving DecidableEq

/-- Interface Criterion of App.tsx: identifier, name, weight and the
transient ordering rank used during pairwise prioritization. -/
structure Criterion where
  id : ℕ
  name : String
  weight : ℚ
  order : ℕ
deriving DecidableEq

/-- Interface ScoreEntry of App.tsx. -/
structure ScoreEntry where
  optionId : ℕ
  criterionId : ℕ
  score : ℚ
deriving DecidableEq

/-- Interface Result of App.tsx.  The two score fields are JSNum because
they are produced by JavaScript divisions that can yield NaN. -/
structure Result where
  optionId : ℕ
  optionName : String
  totalScore : JSNum
  weightedScore : JSNum
deriving DecidableEq

/-- Interface Decision of App.tsx. -/
structure Decision where
  question : String
  options : List DOption
  criteria : List Criterion
  scores : List ScoreEntry
  results : List Result
  implementationPlan : Option String
deriving DecidableEq

/-- Default criterion used to totalize list indexing in the model; the
program never reads out of bounds on the paths covered by the theorems. -/
def dfltCriterion : Criterion := { id := 0, name := "", weight := 0, order := 0 }

/-- Default result value for total list indexing. -/
def dfltResult : Result :=
  { optionId := 0, optionName := "", totalScore := JSNum.num 0, weightedScore := JSNum.num 0 }

/- ### Step 2 and 3: adding and removing options and criteria -/

/-- Function addOption of App.tsx: appends an option whose id is the current
Date.now value (passed here explicitly as the parameter now). -/
def addOption (d : Decision) (now : ℕ) (name : String) : Decision :=
  { d with options := d.options ++ [{ id := now, name := name }] }

/-- Function addSuggestedOption of App.tsx: identical to addOption on the
decision record (the removal of the clicked AI suggestion from the
suggestion list is modelled at the session level). -/
def addSuggestedOption (d : Decision) (now : ℕ) (name : String) : Decision :=
  { d with options := d.options ++ [{ id := now, name := name }] }

/-- Function removeOption of App.tsx. -/
def removeOption (d : Decision) (id : ℕ) : Decision :=
  { d with options := d.options.filter (fun opt => opt.id ≠ id) }

/-- Function addCriterion of App.tsx: appends a criterion with weight 0 and
order equal to the current criterion count. -/
def addCriterion (d : Decision) (now : ℕ) (name : String) : Decision :=
  { d with criteria := d.criteria ++
      [{ id := now, name := name, weight := 0, order := d.criteria.length }] }

/-- Function addSuggestedCriterion of App.tsx: like addCriterion but takes
the AI-suggested weight. -/
def addSuggestedCriterion (d : Decision) (now : ℕ) (name : String) (weight : ℚ) : Decision :=
  { d with criteria := d.criteria ++
      [{ id := now, name := name, weight := weight, order := d.criteria.length }] }

/-- Function removeCriterion of App.tsx. -/
def removeCriterion (d : Decision) (id : ℕ) : Decision :=
  { d with criteria := d.criteria.filter (fun crit => crit.id ≠ id) }

/-- Function updateCriterionWeight of App.tsx. -/
def updateCriterionWeight (cs : List Criterion) (id : ℕ) (weight : ℚ) : List Criterion :=
  cs.map (fun crit => if crit.id = id then { crit with weight := weight } else crit)

/- ### Step 4: pairwise criteria ordering -/

/-- State of the ordering phase: the orderingStep counter and the
orderedCriteria working array of App.tsx.  The currentPair React state is
derivable: whenever it is set, it equals the working-array entries at
positions orderingStep - 1 and orderingStep (startOrdering sets step 1 with
pair (0,1); handleOrderingChoice sets step s+1 with pair (s, s+1)). -/
structure OrderingState where
  orderingStep : ℕ
  orderedCriteria : List Criterion
deriving DecidableEq

/-- Function startOrdering of App.tsx: copies the criteria into the working
array and presents the first pair. -/
def startOrdering (criteria : List Criterion) : OrderingState :=
  { orderingStep := 1, orderedCriteria := criteria }

/-- The comparator a.order - b.order of the final sort in
handleOrderingChoice, as a goes-before test: a may precede b when the
comparator is at most zero. -/
def orderLe (a b : Criterion) : Bool := decide (a.order ≤ b.order)

/-- Stable ascending sort by the order field, modelling
sort((a, b) => a.order - b.order) on the final criteria array. -/
def sortByOrder (cs : List Criterion) : List Criterion := stableSort orderLe cs

/-- The weight assignment of handleOrderingChoice once ordering completes:
criteria.map((crit, index) => weight = 100 - index * (100 / (length - 1))).
Rational arithmetic is exact here for length at least 2; the length 1 case
diverges from JavaScript (see jsWeightAt) but is unreachable, because the
ordering step requires at least two criteria. -/
def assignWeights (cs : List Criterion) : List Criterion :=
  mapIdxFrom 0
    (fun index crit =>
      { crit with weight := 100 - ((index : ℚ) * (100 / ((cs.length : ℚ) - 1))) })
    cs

/-- The same weight expression 100 - index * (100 / (length - 1)) evaluated
under genuine JavaScript number semantics, used to analyse the length 1
edge case where 100 / 0 is Infinity and 0 * Infinity is NaN. -/
def jsWeightAt (len index : ℕ) : JSNum :=
  jsSub (JSNum.num 100) (jsMul (JSNum.num (index : ℚ)) (jsDiv 100 ((len : ℚ) - 1)))

/-- Function handleOrderingChoice of App.tsx.  The total parameter is
decision.criteria.length, read by the source from the decision record.
Returns the next ordering state, or the final criteria list (sorted by
order, with weights assigned) when ordering completes. -/
def handleOrderingChoice (total : ℕ) (st : OrderingState) (chosen : Criterion) :
    OrderingState ⊕ List Criterion :=
  let currentIndex := st.orderingStep - 1
  let updatedCriteria := st.orderedCriteria.map
    (fun crit => if crit.id = chosen.id then { crit with order := currentIndex } else crit)
  if st.orderingStep < total - 1 then
    Sum.inl { orderingStep := st.orderingStep + 1, orderedCriteria := updatedCriteria }
  else
    let finalOrdered := sortByOrder (updatedCriteria.map
      (fun crit => if crit.id = chosen.id then { crit with order := currentIndex } else crit))
    Sum.inr (assignWeights finalOrdered)

/-- Drive the ordering phase over a list of user choices.  Each Bool picks
the first or the second member of the currently presented pair.  Returns
the list of pairs that were presented and the final criteria list (empty if
the choices ran out before ordering completed, in which case the UI is
still waiting for input). -/
def runOrdering (total : ℕ) (st : OrderingState) :
    List Bool → List (Criterion × Criterion) × List Criterion
  | [] => ([], [])
  | choice :: rest =>
    let pair := (st.orderedCriteria.getD (st.orderingStep - 1) dfltCriterion,
                 st.orderedCriteria.getD st.orderingStep dfltCriterion)
    let chosen := if choice then pair.1 else pair.2
    match handleOrderingChoice total st chosen with
    | Sum.inl st' =>
      let r := runOrdering total st' rest
      (pair :: r.1, r.2)
    | Sum.inr final => ([pair], final)

/- ### Step 5: scoring -/

/-- Function getScore of App.tsx: first matching entry, or 0 when absent.
The source expression is scoreEntry?.score || 0; on the rationals the
or-with-zero is the identity (a stored 0 reads back as 0 either way). -/
def getScore (scores : List ScoreEntry) (optionId criterionId : ℕ) : ℚ :=
  match scores.find? (fun s => decide (s.optionId = optionId ∧ s.criterionId = criterionId)) with
  | some scoreEntry => scoreEntry.score
  | none => 0

/-- Function updateScore of App.tsx: overwrite the first entry for the
(option, criterion) pair in place if one exists, otherwise append. -/
def updateScore (scores : List ScoreEntry) (optionId criterionId : ℕ) (score : ℚ) :
    List ScoreEntry :=
  match scores.findIdx? (fun s => decide (s.optionId = optionId ∧ s.criterionId = criterionId)) with
  | some existingIndex =>
      scores.set existingIndex
        { optionId := optionId, criterionId := criterionId, score := score }
  | none => scores ++ [{ optionId := optionId, criterionId := criterionId, score := score }]

/- ### Results calculation -/

/-- The totalWeight accumulation at the top of calculateResults. -/
def totalWeight (d : Decision) : ℚ :=
  d.criteria.foldl (fun sum crit => sum + crit.weight) 0

/-- The forEach accumulation inside calculateResults: the pair of the raw
total score and the raw weighted score of one option over all criteria. -/
def scoreTotals (d : Decision) (option : DOption) : ℚ × ℚ :=
  d.criteria.foldl
    (fun acc criterion =>
      let score := getScore d.scores option.id criterion.id
      (acc.1 + score, acc.2 + score * criterion.weight))
    (0, 0)

/-- The Result record built for one option by calculateResults, including
the two JavaScript divisions. -/
def calcResult (d : Decision) (option : DOption) : Result :=
  { optionId := option.id
    optionName := option.name
    totalScore := jsDiv (scoreTotals d option).1 ((d.criteria.length : ℚ))
    weightedScore := jsDiv (scoreTotals d option).2 (totalWeight d) }

/-- The goes-before test induced by the comparator
(a, b) => b.weightedScore - a.weightedScore of calculateResults: a may
precede b exactly when a.weightedScore is at least b.weightedScore. -/
def resultLe (a b : Result) : Bool := jsGe a.weightedScore b.weightedScore

/-- Function calculateResults of App.tsx: map every option to its Result,
then sort descending by weighted score (stably). -/
def calculateResults (d : Decision) : List Result :=
  stableSort resultLe (d.options.map (calcResult d))

/- ### Session level state and reset -/

/-- The wizard step union type of App.tsx. -/
inductive Step where
  | apiKey
  | decision
  | options
  | criteria
  | ordering
  | scoring
  | results
  | plan
deriving DecidableEq

/-- The session-level React state of App.tsx that can carry decision-model
entities: the current step, the decision record, the two AI suggestion
lists, and the ordering-phase state, that is the orderingStep,
orderedCriteria and currentPair hooks declared next to startOrdering,
which hold Criterion records during and after prioritization.  The
remaining hooks (text input buffers and loading flags) hold no Option,
Criterion, ScoreEntry or Result entities and are omitted. -/
structure AppState where
  currentStep : Step
  decision : Decision
  suggestedOptions : List String
  suggestedCriteria : List (String × ℚ)
  orderingStep : ℕ
  orderedCriteria : List Criterion
  currentPair : Option (Criterion × Criterion)
deriving DecidableEq

/-- The empty decision record literal used by the initial state and by
resetDecision; the object literal has no implementationPlan field, so that
field resets to undefined. -/
def emptyDecision : Decision :=
  { question := "", options := [], criteria := [], scores := [], results := []
    implementationPlan := none }

/-- Function resetDecision of App.tsx: one setDecision call installs the
empty record (clearing options, criteria, scores and results together),
the suggestion lists are emptied, and the wizard returns to the decision
step, the first step of a session once an API key is present.  The
ordering-phase state is NOT touched: orderingStep, orderedCriteria and
currentPair keep whatever the previous session left in them. -/
def resetDecision (st : AppState) : AppState :=
  { st with
    decision := emptyDecision
    suggestedOptions := []
    suggestedCriteria := []
    currentStep := Step.decision }

/- ### Generic lemmas about the sort and map helpers -/

theorem insortLe_perm {α : Type} (le : α → α → Bool) (a : α) (l : List α) :
    (insortLe le a l).Perm (a :: l) := by
  induction l with
  | nil => simp [insortLe]
  | cons x xs ih =>
    simp only [insortLe]
    split
    · exact List.Perm.refl _
    · exact (ih.cons x).trans (List.Perm.swap a x xs)

theorem stableSort_perm {α : Type} (le : α → α → Bool) (l : List α) :
    (stableSort le l).Perm l := by
  induction l with
  | nil => simp [stableSort]
  | cons x xs ih =>
    have h : stableSort le (x :: xs) = insortLe le x (stableSort le xs) := rfl
    rw [h]
    exact (insortLe_perm le x _).trans (ih.cons x)

theorem stableSort_length {α : Type} (le : α → α → Bool) (l : List α) :
    (stableSort le l).length = l.length :=
  (stableSort_perm le l).length_eq

theorem mem_stableSort {α : Type} (le : α → α → Bool) (l : List α) (x : α) :
    x ∈ stableSort le l ↔ x ∈ l :=
  (stableSort_perm le l).mem_iff

theorem pairwise_insortLe {α : Type} (le : α → α → Bool) (a : α) (l : List α)
    (htot : ∀ x ∈ l, le a x = true ∨ le x a = true)
    (htrans : ∀ x ∈ l, ∀ y ∈ l, le a x = true → le x y = true → le a y = true)
    (hl : l.Pairwise (fun x y => le x y = true)) :
    (insortLe le a l).Pairwise (fun x y => le x y = true) := by
  induction l with
  | nil => simp [insortLe]
  | cons x xs ih =>
    rcases List.pairwise_cons.mp hl with ⟨hx, hxs⟩
    simp only [insortLe]
    split
    case isTrue hax =>
      refine List.pairwise_cons.mpr ⟨?_, hl⟩
      intro z hz
      rcases List.mem_cons.mp hz with rfl | hz
      · exact hax
      · exact htrans x (List.mem_cons_self x xs) z (List.mem_cons_of_mem x hz) hax (hx z hz)
    case isFalse hax =>
      refine List.pairwise_cons.mpr ⟨?_, ?_⟩
      · intro z hz
        have hz' : z ∈ a :: xs := (insortLe_perm le a xs).mem_iff.mp hz
        rcases List.mem_cons.mp hz' with rfl | hz'
        · rcases htot x (List.mem_cons_self x xs) with h | h
          · exact absurd h hax
          · exact h
        · exact hx z hz'
      · exact ih (fun z hz => htot z (List.mem_cons_of_mem x hz))
          (fun z hz y hy => htrans z (List.mem_cons_of_mem x hz) y (List.mem_cons_of_mem x hy))
          hxs

theorem stableSort_pairwise {α : Type} (le : α → α → Bool) (l : List α)
    (htot : ∀ x ∈ l, ∀ y ∈ l, le x y = true ∨ le y x = true)
    (htrans : ∀ x ∈ l, ∀ y ∈ l, ∀ z ∈ l, le x y = true → le y z = true → le x z = true) :
    (stableSort le l).Pairwise (fun x y => le x y = true) := by
  induction l with
  | nil => simp [stableSort]
  | cons a xs ih =>
    have h : stableSort le (a :: xs) = insortLe le a (stableSort le xs) := rfl
    rw [h]
    have hmem : ∀ x ∈ stableSort le xs, x ∈ xs := fun x hx =>
      (mem_stableSort le xs x).mp hx
    refine pairwise_insortLe le a _ ?_ ?_ ?_
    · intro x hx
      exact htot a (List.mem_cons_self a xs) x (List.mem_cons_of_mem a (hmem x hx))
    · intro x hx y hy
      exact htrans a (List.mem_cons_self a xs) x (List.mem_cons_of_mem a (hmem x hx))
        y (List.mem_cons_of_mem a (hmem y hy))
    · exact ih (fun x hx y hy => htot x (List.mem_cons_of_mem a hx) y (List.mem_cons_of_mem a hy))
        (fun x hx y hy z hz => htrans x (List.mem_cons_of_mem a hx) y (List.mem_cons_of_mem a hy)
          z (List.mem_cons_of_mem a hz))

theorem filter_insortLe {α : Type} (le : α → α → Bool) (p : α → Bool) (a : α) (l : List α)
    (hcls : ∀ x, p x = true → p a = true → le a x = true) :
    (insortLe le a l).filter p = if p a then a :: l.filter p else l.filter p := by
  induction l with
  | nil =>
    cases hpa : p a <;> simp [insortLe, List.filter_cons, hpa]
  | cons x xs ih =>
    simp only [insortLe]
    split
    case isTrue hax =>
      cases hpa : p a <;> simp [List.filter_cons, hpa]
    case isFalse hax =>
      rw [List.filter_cons, ih]
      cases hpa : p a
      · cases hpx : p x <;> simp [List.filter_cons, hpa, hpx]
      · cases hpx : p x
        · simp [List.filter_cons, hpa, hpx]
        · exact absurd (hcls x hpx hpa) hax

theorem filter_stableSort {α : Type} (le : α → α → Bool) (p : α → Bool) (l : List α)
    (hcls : ∀ x y, p x = true → p y = true → le x y = true) :
    (stableSort le l).filter p = l.filter p := by
  induction l with
  | nil => rfl
  | cons a xs ih =>
    have h : stableSort le (a :: xs) = insortLe le a (stableSort le xs) := rfl
    rw [h, filter_insortLe le p a _ (fun x hx ha => hcls a x ha hx), ih]
    cases hpa : p a <;> simp [List.filter_cons, hpa]

theorem map_insortLe {α β : Type} (f : α → β) (le : α → α → Bool) (leB : β → β → Bool)
    (hco : ∀ x y, le x y = leB (f x) (f y)) (a : α) (l : List α) :
    (insortLe le a l).map f = insortLe leB (f a) (l.map f) := by
  induction l with
  | nil => simp [insortLe]
  | cons x xs ih =>
    simp only [insortLe, List.map_cons]
    rw [hco]
    split <;> simp [List.map_cons, ih]

theorem map_stableSort {α β : Type} (f : α → β) (le : α → α → Bool) (leB : β → β → Bool)
    (hco : ∀ x y, le x y = leB (f x) (f y)) (l : List α) :
    (stableSort le l).map f = stableSort leB (l.map f) := by
  induction l with
  | nil => rfl
  | cons a xs ih =>
    have h : stableSort le (a :: xs) = insortLe le a (stableSort le xs) := rfl
    rw [h, map_insortLe f le leB hco, ih]
    rfl

theorem mapIdxFrom_length {α β : Type} (f : ℕ → α → β) :
    ∀ (l : List α) (k : ℕ), (mapIdxFrom k f l).length = l.length
  | [], _ => rfl
  | _ :: as, k => by simp [mapIdxFrom, mapIdxFrom_length f as (k + 1)]

theorem mapIdxFrom_getD {α β : Type} (f : ℕ → α → β) (dα : α) (dβ : β) :
    ∀ (l : List α) (k i : ℕ), i < l.length →
      (mapIdxFrom k f l).getD i dβ = f (k + i) (l.getD i dα)
  | [], _, i, h => by simp at h
  | a :: as, k, 0, _ => by simp [mapIdxFrom]
  | a :: as, k, i + 1, h => by
    have hi : i < as.length := by simpa using Nat.lt_of_succ_lt_succ h
    have ih := mapIdxFrom_getD f dα dβ as (k + 1) i hi
    simp only [mapIdxFrom, List.getD_cons_succ, ih]
    congr 1
    omega

theorem mem_mapIdxFrom {α β : Type} (f : ℕ → α → β) :
    ∀ (l : List α) (k : ℕ) (b : β), b ∈ mapIdxFrom k f l → ∃ i, ∃ a ∈ l, b = f i a
  | [], _, b, h => by simp [mapIdxFrom] at h
  | a :: as, k, b, h => by
    rcases List.mem_cons.mp h with h | h
    · exact ⟨k, a, List.mem_cons_self a as, h⟩
    · rcases mem_mapIdxFrom f as (k + 1) b h with ⟨i, x, hx, hb⟩
      exact ⟨i, x, List.mem_cons_of_mem a hx, hb⟩

theorem map_eq_getD {α β : Type} (f : α → β) (d : α) :
    ∀ (l₁ l₂ : List α), l₁.map f = l₂.map f →
      ∀ i : ℕ, f (l₁.getD i d) = f (l₂.getD i d) := by
  intro l₁
  induction l₁ with
  | nil =>
    intro l₂ h i
    cases l₂ with
    | nil => rfl
    | cons b bs => simp at h
  | cons a as ih =>
    intro l₂ h i
    cases l₂ with
    | nil => simp at h
    | cons b bs =>
      simp only [List.map_cons, List.cons.injEq] at h
      cases i with
      | zero => simpa using h.1
      | succ i => simpa using ih bs h.2 i

theorem foldl_add_map {α : Type} (g : α → ℚ) :
    ∀ (l : List α) (x : ℚ), l.foldl (fun s c => s + g c) x = x + (l.map g).sum
  | [], x => by simp
  | a :: as, x => by
    simp only [List.foldl_cons, List.map_cons, List.sum_cons]
    rw [foldl_add_map g as (x + g a)]
    ring

theorem foldl_pair_sum {α : Type} (g h : α → ℚ) :
    ∀ (l : List α) (x y : ℚ),
      l.foldl (fun acc c => (acc.1 + g c, acc.2 + h c)) (x, y)
        = (x + (l.map g).sum, y + (l.map h).sum)
  | [], x, y => by simp
  | a :: as, x, y => by
    simp only [List.foldl_cons, List.map_cons, List.sum_cons]
    rw [foldl_pair_sum g h as (x + g a) (y + h a)]
    simp [add_assoc]

theorem jsDiv_of_ne_zero (a b : ℚ) (h : b ≠ 0) : jsDiv a b = JSNum.num (a / b) := by
  simp [jsDiv, h]

/- ### Helper lemmas about the aggregation -/

theorem scoreTotals_eq (d : Decision) (o : DOption) :
    scoreTotals d o =
      ((d.criteria.map (fun c => getScore d.scores o.id c.id)).sum,
       (d.criteria.map (fun c => getScore d.scores o.id c.id * c.weight)).sum) := by
  have h := foldl_pair_sum (fun c : Criterion => getScore d.scores o.id c.id)
    (fun c : Criterion => getScore d.scores o.id c.id * c.weight) d.criteria 0 0
  simpa [scoreTotals] using h

theorem totalWeight_eq (d : Decision) :
    totalWeight d = (d.criteria.map Criterion.weight).sum := by
  have h := foldl_add_map Criterion.weight d.criteria 0
  simpa [totalWeight] using h

/- ### Example states used by the witnesses and counterexamples -/

/-- Worked example from the aggregation contract: two options A and B, two
criteria Cost (weight 100) and Speed (weight 0), scores A = (8, 2) and
B = (3, 9). -/
def exDecision : Decision :=
  { question := "which"
    options := [{ id := 1, name := "A" }, { id := 2, name := "B" }]
    criteria := [{ id := 10, name := "Cost", weight := 100, order := 0 },
                 { id := 11, name := "Speed", weight := 0, order := 1 }]
    scores := [{ optionId := 1, criterionId := 10, score := 8 },
               { optionId := 1, criterionId := 11, score := 2 },
               { optionId := 2, criterionId := 10, score := 3 },
               { optionId := 2, criterionId := 11, score := 9 }]
    results := []
    implementationPlan := none }

/-- Three criteria X, Y, Z as entered in a fresh session (orders are the
insertion indices, weights still at their defaults). -/
def exCriteria : List Criterion :=
  [{ id := 1, name := "X", weight := 0, order := 0 },
   { id := 2, name := "Y", weight := 0, order := 1 },
   { id := 3, name := "Z", weight := 0, order := 2 }]

/-- Decision state whose criterion weights sum to zero, feeding the
unguarded weighted-score division of calculateResults. -/
def zeroWeightDecision : Decision :=
  { question := "q"
    options := [{ id := 1, name := "A" }]
    criteria := [{ id := 10, name := "C", weight := 0, order := 0 },
                 { id := 11, name := "D", weight := 0, order := 1 }]
    scores := [{ optionId := 1, criterionId := 10, score := 7 }]
    results := []
    implementationPlan := none }

theorem exDecision_totalWeight : totalWeight exDecision = 100 := by
  rw [totalWeight_eq]; norm_num [exDecision]

/- ### Claim C1 -/

/-- C1: for every decision state with at least one criterion and nonzero
total weight (every state actually finalized by the prioritizer has total
weight at least 100), calculateResults produces for each option a Result
whose totalScore is the average of its scores over all criteria and whose
weightedScore is the weight-scaled sum divided by the total weight, with a
missing ScoreEntry contributing 0 to both sums through getScore. -/
theorem calculateResults_option_formulas (d : Decision)
    (hcrit : d.criteria ≠ []) (hw : totalWeight d ≠ 0) :
    ∀ o ∈ d.options, ∃ r ∈ calculateResults d,
      r.optionId = o.id ∧
      r.totalScore = JSNum.num
        ((d.criteria.map (fun c => getScore d.scores o.id c.id)).sum
          / (d.criteria.length : ℚ)) ∧
      r.weightedScore = JSNum.num
        ((d.criteria.map (fun c => getScore d.scores o.id c.id * c.weight)).sum
          / totalWeight d) := by
  intro o ho
  refine ⟨calcResult d o, ?_, rfl, ?_, ?_⟩
  · exact (mem_stableSort resultLe _ _).mpr (List.mem_map_of_mem (calcResult d) ho)
  · have hlen0 : d.criteria.length ≠ 0 := fun h => hcrit (List.length_eq_zero.mp h)
    have hlen : (d.criteria.length : ℚ) ≠ 0 := by exact_mod_cast hlen0
    simp only [calcResult, scoreTotals_eq]
    rw [jsDiv_of_ne_zero _ _ hlen]
  · simp only [calcResult, scoreTotals_eq]
    rw [jsDiv_of_ne_zero _ _ hw]

/-- Witness for C1 at the worked example: option A has average 5 and
weighted score 8. -/
theorem calculateResults_option_formulas_witness :
    exDecision.criteria ≠ [] ∧ totalWeight exDecision ≠ 0 ∧
    ∃ r ∈ calculateResults exDecision,
      r.optionId = 1 ∧ r.totalScore = JSNum.num 5 ∧ r.weightedScore = JSNum.num 8 := by
  have hw : totalWeight exDecision ≠ 0 := by rw [exDecision_totalWeight]; norm_num
  refine ⟨by decide, hw, ?_⟩
  obtain ⟨r, hr, h1, h2, h3⟩ :=
    calculateResults_option_formulas exDecision (by decide) hw
      { id := 1, name := "A" } (by decide)
  refine ⟨r, hr, h1, ?_, ?_⟩
  · rw [h2]; norm_num [exDecision, getScore, List.find?]
  · rw [h3, exDecision_totalWeight]; norm_num [exDecision, getScore, List.find?]

/- ### Claim C3 -/

/-- C3: the zero-total-weight division of calculateResults is NOT guarded.
At a state whose criterion weights are all zero the weighted score comes
out as NaN (the JavaScript value of 0 / 0), not as a defined default such
as 0.  This contradicts the defensive-handling requirement of the
specification, so the claim is recorded as a code bug; note the state is
unreachable through the normal wizard flow, because completing the
ordering step always leaves a criterion of weight 100. -/
theorem calculateResults_zero_weight_nan :
    totalWeight zeroWeightDecision = 0 ∧
    (calculateResults zeroWeightDecision).map (fun r => r.weightedScore) = [JSNum.nan] ∧
    JSNum.nan ≠ JSNum.num 0 := by
  have hw : totalWeight zeroWeightDecision = 0 := by
    rw [totalWeight_eq]; norm_num [zeroWeightDecision]
  have hs : (scoreTotals zeroWeightDecision { id := 1, name := "A" }).2 = 0 := by
    rw [scoreTotals_eq]; norm_num [zeroWeightDecision, getScore, List.find?]
  have hcalc : calculateResults zeroWeightDecision
      = [calcResult zeroWeightDecision { id := 1, name := "A" }] := by
    simp [calculateResults, zeroWeightDecision, stableSort, insortLe]
  refine ⟨hw, ?_, by decide⟩
  rw [hcalc]
  simp [calcResult, hs, hw, jsDiv]

/- ### Claim C4 -/

/-- C4: calculateResults returns one Result per option, sorted descending
by weighted score; ties keep the original option insertion order (the
filter at each weighted-score value equals the filter of the unsorted
per-option map, which is in insertion order).  Stated for states with
nonzero total weight, where the sort comparator is consistent. -/
theorem calculateResults_sorted_stable (d : Decision) (hw : totalWeight d ≠ 0) :
    (calculateResults d).length = d.options.length ∧
    (calculateResults d).Pairwise
      (fun a b => jsGe a.weightedScore b.weightedScore = true) ∧
    ∀ q : ℚ,
      (calculateResults d).filter (fun r => decide (r.weightedScore = JSNum.num q))
        = (d.options.map (calcResult d)).filter
            (fun r => decide (r.weightedScore = JSNum.num q)) := by
  have hnum : ∀ r ∈ d.options.map (calcResult d), ∃ q : ℚ, r.weightedScore = JSNum.num q := by
    intro r hr
    rcases List.mem_map.mp hr with ⟨o, _, rfl⟩
    exact ⟨(scoreTotals d o).2 / totalWeight d, by simp [calcResult, jsDiv_of_ne_zero _ _ hw]⟩
  refine ⟨?_, ?_, ?_⟩
  · rw [calculateResults, stableSort_length, List.length_map]
  · have h := stableSort_pairwise resultLe (d.options.map (calcResult d)) ?_ ?_
    · exact h
    · intro x hx y hy
      rcases hnum x hx with ⟨qx, hqx⟩
      rcases hnum y hy with ⟨qy, hqy⟩
      simp only [resultLe, hqx, hqy, jsGe]
      rcases le_total qy qx with h | h <;> simp [h]
    · intro x hx y hy z hz h1 h2
      rcases hnum x hx with ⟨qx, hqx⟩
      rcases hnum y hy with ⟨qy, hqy⟩
      rcases hnum z hz with ⟨qz, hqz⟩
      simp only [resultLe, hqx, hqy, hqz, jsGe, decide_eq_true_eq] at h1 h2 ⊢
      exact le_trans h2 h1
  · intro q
    apply filter_stableSort
    intro x y hx hy
    have hx' : x.weightedScore = JSNum.num q := of_decide_eq_true hx
    have hy' : y.weightedScore = JSNum.num q := of_decide_eq_true hy
    simp [resultLe, hx', hy', jsGe]

/-- Witness for C4 at the worked example: two results, descending, and the
tie-filter at the winning score 8 matches the raw per-option map. -/
theorem calculateResults_sorted_stable_witness :
    totalWeight exDecision ≠ 0 ∧
    (calculateResults exDecision).length = 2 ∧
    (calculateResults exDecision).Pairwise
      (fun a b => jsGe a.weightedScore b.weightedScore = true) ∧
    (calculateResults exDecision).filter (fun r => decide (r.weightedScore = JSNum.num 8))
      = (exDecision.options.map (calcResult exDecision)).filter
          (fun r => decide (r.weightedScore = JSNum.num 8)) := by
  have hw : totalWeight exDecision ≠ 0 := by rw [exDecision_totalWeight]; norm_num
  have h := calculateResults_sorted_stable exDecision hw
  exact ⟨hw, h.1.trans (by decide), h.2.1, h.2.2 8⟩

/- ### Claim C9 -/

/-- The ordering-phase state a completed session over the criteria
[X, Y, Z] (choices X, then Y) leaves behind: the final branch of
handleOrderingChoice writes only the decision record and the step, so
orderingStep stays at 2, orderedCriteria keeps the working array and
currentPair keeps the last presented pair (Y, Z). -/
def exStaleState : AppState :=
  { currentStep := Step.results
    decision := exDecision
    suggestedOptions := []
    suggestedCriteria := []
    orderingStep := 2
    orderedCriteria := exCriteria
    currentPair := some
      ({ id := 2, name := "Y", weight := 0, order := 1 },
       { id := 3, name := "Z", weight := 0, order := 2 }) }

/-- C9: resetDecision does clear the decision record in one setDecision
call (options, criteria, scores, results, question and plan together),
empties both suggestion lists and returns to the decision step — but the
claim that afterwards no entity from the previous session is retrievable
from any program state is FALSE of the code: resetDecision never touches
the ordering-phase hooks, so orderingStep, orderedCriteria and
currentPair retain the previous session's Criterion records, as the
concrete post-session state below exhibits.  When the next session
reaches the ordering step, the render guard orderingStep equal to 0
fails and the stale currentPair from the previous session is displayed,
contradicting the atomic-discard requirement of the specification, so
the claim is recorded as a code bug. -/
theorem resetDecision_stale_ordering :
    (∀ st : AppState,
      (resetDecision st).decision = emptyDecision ∧
      (resetDecision st).currentStep = Step.decision ∧
      (resetDecision st).suggestedOptions = [] ∧
      (resetDecision st).suggestedCriteria = [] ∧
      (resetDecision st).orderingStep = st.orderingStep ∧
      (resetDecision st).orderedCriteria = st.orderedCriteria ∧
      (resetDecision st).currentPair = st.currentPair) ∧
    (resetDecision exStaleState).orderedCriteria = exCriteria ∧
    (resetDecision exStaleState).currentPair
      = some ({ id := 2, name := "Y", weight := 0, order := 1 },
              { id := 3, name := "Z", weight := 0, order := 2 }) ∧
    (resetDecision exStaleState).orderingStep = 2 :=
  ⟨fun _ => ⟨rfl, rfl, rfl, rfl, rfl, rfl, rfl⟩, rfl, rfl, rfl⟩

/- ### Ordering phase lemmas -/

theorem handleOrderingChoice_lt (total : ℕ) (st : OrderingState) (chosen : Criterion)
    (h : st.orderingStep < total - 1) :
    handleOrderingChoice total st chosen
      = Sum.inl { orderingStep := st.orderingStep + 1
                  orderedCriteria := st.orderedCriteria.map
                    (fun crit => if crit.id = chosen.id
                      then { crit with order := st.orderingStep - 1 } else crit) } := by
  simp [handleOrderingChoice, h]

theorem handleOrderingChoice_last (total : ℕ) (st : OrderingState) (chosen : Criterion)
    (h : ¬ st.orderingStep < total - 1) :
    handleOrderingChoice total st chosen
      = Sum.inr (assignWeights (sortByOrder
          ((st.orderedCriteria.map
              (fun crit => if crit.id = chosen.id
                then { crit with order := st.orderingStep - 1 } else crit)).map
            (fun crit => if crit.id = chosen.id
              then { crit with order := st.orderingStep - 1 } else crit)))) := by
  simp [handleOrderingChoice, h]

theorem assignWeights_length (cs : List Criterion) :
    (assignWeights cs).length = cs.length := by
  unfold assignWeights
  exact mapIdxFrom_length _ cs 0

theorem assignWeights_order (cs : List Criterion) :
    ∀ c ∈ assignWeights cs, ∃ c' ∈ cs, c.order = c'.order := by
  intro c hc
  rcases mem_mapIdxFrom _ cs 0 c hc with ⟨i, a, ha, rfl⟩
  exact ⟨a, ha, rfl⟩

/-- An order update of the chosen criterion keeps every order value below
a bound that the assigned index also respects. -/
theorem update_order_bound (arr : List Criterion) (cid k total : ℕ) (hk : k < total)
    (h : ∀ c ∈ arr, c.order < total) :
    ∀ c ∈ arr.map (fun crit => if crit.id = cid then { crit with order := k } else crit),
      c.order < total := by
  intro c hc
  rcases List.mem_map.mp hc with ⟨c', hc', rfl⟩
  split
  · simpa using hk
  · exact h c' hc'

/-- Invariant of the ordering loop: while the remaining choices exactly
fill the comparisons, the final criteria list keeps the working-array
length and every order value stays below the criterion count (orders are
either initial ones or assigned comparison indices, which never exceed
total - 2). -/
theorem runOrdering_final_bounds (total : ℕ) :
    ∀ (choices : List Bool) (s : ℕ) (arr : List Criterion),
      1 ≤ s → s ≤ total - 1 → 2 ≤ total →
      s + choices.length = total →
      (∀ c ∈ arr, c.order < total) →
      (runOrdering total ⟨s, arr⟩ choices).2.length = arr.length ∧
      ∀ c ∈ (runOrdering total ⟨s, arr⟩ choices).2, c.order < total := by
  intro choices
  induction choices with
  | nil =>
    intro s arr h1 h2 h3 h4 _
    simp only [List.length_nil] at h4
    omega
  | cons b bs ih =>
    intro s arr h1 h2 h3 h4 h5
    simp only [List.length_cons] at h4
    simp only [runOrdering]
    by_cases hlt : s < total - 1
    · rw [handleOrderingChoice_lt total ⟨s, arr⟩ _ hlt]
      dsimp only
      constructor
      · rw [(ih (s + 1) _ (by omega) (by omega) h3 (by omega)
            (update_order_bound _ _ _ total (by omega) h5)).1]
        exact List.length_map _ _
      · exact (ih (s + 1) _ (by omega) (by omega) h3 (by omega)
          (update_order_bound _ _ _ total (by omega) h5)).2
    · rw [handleOrderingChoice_last total ⟨s, arr⟩ _ hlt]
      dsimp only
      constructor
      · rw [assignWeights_length]
        simp only [sortByOrder]
        rw [stableSort_length]
        simp
      · intro c hc
        rcases assignWeights_order _ c hc with ⟨c', hc', horder⟩
        rw [horder]
        have hc'' := (mem_stableSort orderLe _ c').mp hc'
        exact update_order_bound _ _ _ total (by omega)
          (update_order_bound _ _ _ total (by omega) h5) c' hc''

/- ### Claim C2 -/

/-- C2 (amended): running the prioritizer to completion over N greater
than 1 criteria whose initial order fields are below N (as in a fresh
add-only session, where they are the insertion indices 0, ..., N-1)
assigns all N criteria an order value in the range 0 to N-1, but the
values are NOT necessarily distinct: a criterion that never wins keeps its
insertion order, which can coincide with an assigned rank (see the
counterexample ordering_duplicate_orders). -/
theorem ordering_orders_in_range (N : ℕ) (cs : List Criterion) (choices : List Bool)
    (hN : 2 ≤ N) (hlen : cs.length = N) (hch : choices.length = N - 1)
    (hinit : ∀ c ∈ cs, c.order < N) :
    (runOrdering N (startOrdering cs) choices).2.length = N ∧
    ∀ c ∈ (runOrdering N (startOrdering cs) choices).2, c.order < N := by
  have h := runOrdering_final_bounds N choices 1 cs
    (by omega) (by omega) hN (by omega) hinit
  exact ⟨h.1.trans hlen, h.2⟩

/-- Witness for C2 at three criteria with the first pick winning twice:
all three orders lie below 3. -/
theorem ordering_orders_in_range_witness :
    (2 ≤ 3 ∧ exCriteria.length = 3 ∧ ([true, true] : List Bool).length = 3 - 1 ∧
      ∀ c ∈ exCriteria, c.order < 3) ∧
    (runOrdering 3 (startOrdering exCriteria) [true, true]).2.length = 3 ∧
    ∀ c ∈ (runOrdering 3 (startOrdering exCriteria) [true, true]).2, c.order < 3 := by
  have h := ordering_orders_in_range 3 exCriteria [true, true]
    (by omega) (by decide) (by decide) (by decide)
  exact ⟨⟨by omega, by decide, by decide, by decide⟩, h.1, h.2⟩

/-- C2 counterexample: with criteria [X, Y, Z] and the second member of
each pair chosen (Y over X, then Z over Y), the final order fields are
0, 0, 1: X keeps its insertion order 0 while Y is assigned rank 0, so the
three order values are not pairwise distinct, refuting the claim that
exactly N distinct order values are assigned. -/
theorem ordering_duplicate_orders :
    ((runOrdering 3 (startOrdering exCriteria) [false, false]).2).map (fun c => c.order)
      = [0, 0, 1] ∧
    ¬ ((runOrdering 3 (startOrdering exCriteria) [false, false]).2).Pairwise
        (fun a b => a.order ≠ b.order) := by
  exact ⟨by decide, by decide⟩

/- ### Claim C5 -/

theorem assignWeights_getD (cs : List Criterion) (i : ℕ) (h : i < cs.length) :
    (assignWeights cs).getD i dfltCriterion
      = { cs.getD i dfltCriterion with
          weight := 100 - ((i : ℚ) * (100 / ((cs.length : ℚ) - 1))) } := by
  have hmap := mapIdxFrom_getD
    (fun index crit =>
      { crit with weight := 100 - ((index : ℚ) * (100 / ((cs.length : ℚ) - 1))) })
    dfltCriterion dfltCriterion cs 0 i h
  simpa [assignWeights] using hmap

/-- C5 (amended): for N at least 2 criteria, the completed prioritization
assigns weight(rank i) = 100 - i * (100 / (N - 1)); in particular rank 0
gets 100, rank N-1 gets 0, and weights strictly decrease with rank.  The
single-criterion clause of the original claim fails: the code has no N = 1
special case (prioritization cannot even run with one criterion, since the
ordering step requires at least two), and the unguarded formula would
produce NaN, not 100 (see jsWeight_single_criterion_nan). -/
theorem assignWeights_linear (cs : List Criterion) (hN : 2 ≤ cs.length) :
    (∀ i < cs.length,
      ((assignWeights cs).getD i dfltCriterion).weight
        = 100 - ((i : ℚ) * (100 / ((cs.length : ℚ) - 1)))) ∧
    ((assignWeights cs).getD 0 dfltCriterion).weight = 100 ∧
    ((assignWeights cs).getD (cs.length - 1) dfltCriterion).weight = 0 ∧
    ∀ i j, i < j → j < cs.length →
      ((assignWeights cs).getD j dfltCriterion).weight
        < ((assignWeights cs).getD i dfltCriterion).weight := by
  have h2 : (2 : ℚ) ≤ (cs.length : ℚ) := by exact_mod_cast hN
  have hne : ((cs.length : ℚ) - 1) ≠ 0 := by linarith
  have hform : ∀ i < cs.length,
      ((assignWeights cs).getD i dfltCriterion).weight
        = 100 - ((i : ℚ) * (100 / ((cs.length : ℚ) - 1))) := by
    intro i hi
    rw [assignWeights_getD cs i hi]
  refine ⟨hform, ?_, ?_, ?_⟩
  · rw [hform 0 (by omega)]
    simp
  · rw [hform (cs.length - 1) (by omega)]
    have hcast : ((cs.length - 1 : ℕ) : ℚ) = (cs.length : ℚ) - 1 := by
      have h1 : 1 ≤ cs.length := by omega
      push_cast [h1]
      ring
    rw [hcast]
    field_simp
  · intro i j hij hj
    rw [hform j hj, hform i (lt_trans hij hj)]
    have hpos : 0 < 100 / ((cs.length : ℚ) - 1) := by
      apply div_pos <;> [norm_num; linarith]
    have hcast : (i : ℚ) < (j : ℚ) := by exact_mod_cast hij
    nlinarith

/-- Witness for C5 at three criteria: ranks get weights 100, 50, 0, and
the weight at rank 2 is below the weight at rank 1. -/
theorem assignWeights_linear_witness :
    2 ≤ exCriteria.length ∧
    ((assignWeights exCriteria).getD 0 dfltCriterion).weight = 100 ∧
    ((assignWeights exCriteria).getD (exCriteria.length - 1) dfltCriterion).weight = 0 ∧
    ((assignWeights exCriteria).getD 2 dfltCriterion).weight
      < ((assignWeights exCriteria).getD 1 dfltCriterion).weight := by
  have h := assignWeights_linear exCriteria (by decide)
  exact ⟨by decide, h.2.1, h.2.2.1, h.2.2.2 1 2 (by omega) (by decide)⟩

/-- C5 counterexample: the weight expression evaluated under JavaScript
number semantics at a single criterion (length 1, index 0) is
100 - 0 * (100 / 0) = 100 - 0 * Infinity = 100 - NaN = NaN, not the
claimed special-case weight of 100. -/
theorem jsWeight_single_criterion_nan :
    jsWeightAt 1 0 = JSNum.nan ∧ JSNum.nan ≠ JSNum.num 100 := by
  constructor
  · norm_num [jsWeightAt, jsDiv, jsMul, jsSub]
  · decide

/- ### Claim C6 -/

/-- Identity of a criterion as shown to the user: id and display name.
Order updates during the comparison sweep never change it. -/
def critKey (c : Criterion) : ℕ × String := (c.id, c.name)

theorem critKey_map_update (arr : List Criterion) (cid k : ℕ) :
    (arr.map (fun crit => if crit.id = cid then { crit with order := k } else crit)).map critKey
      = arr.map critKey := by
  induction arr with
  | nil => rfl
  | cons a as ih =>
    simp only [List.map_cons, ih]
    congr 1
    split <;> rfl

/-- The comparison pairs presented by the ordering loop are purely
positional: starting at working position s - 1, the j-th remaining pair
shows the criteria at positions s - 1 + j and s + j of the original
criteria list, whatever the choices are. -/
theorem runOrdering_pairs (total : ℕ) :
    ∀ (choices : List Bool) (s : ℕ) (arr cs : List Criterion),
      1 ≤ s → s ≤ total - 1 → 2 ≤ total →
      s + choices.length = total →
      arr.map critKey = cs.map critKey →
      (runOrdering total ⟨s, arr⟩ choices).1.length = total - s ∧
      ∀ j < total - s,
        critKey ((runOrdering total ⟨s, arr⟩ choices).1.getD j
            (dfltCriterion, dfltCriterion)).1
          = critKey (cs.getD (s - 1 + j) dfltCriterion) ∧
        critKey ((runOrdering total ⟨s, arr⟩ choices).1.getD j
            (dfltCriterion, dfltCriterion)).2
          = critKey (cs.getD (s + j) dfltCriterion) := by
  intro choices
  induction choices with
  | nil =>
    intro s arr cs h1 h2 h3 h4 _
    simp only [List.length_nil] at h4
    omega
  | cons b bs ih =>
    intro s arr cs h1 h2 h3 h4 hkey
    simp only [List.length_cons] at h4
    simp only [runOrdering]
    have hk1 : critKey (arr.getD (s - 1) dfltCriterion)
        = critKey (cs.getD (s - 1) dfltCriterion) :=
      map_eq_getD critKey dfltCriterion arr cs hkey (s - 1)
    have hk2 : critKey (arr.getD s dfltCriterion) = critKey (cs.getD s dfltCriterion) :=
      map_eq_getD critKey dfltCriterion arr cs hkey s
    by_cases hlt : s < total - 1
    · rw [handleOrderingChoice_lt total ⟨s, arr⟩ _ hlt]
      dsimp only
      have hrec := ih (s + 1)
        (arr.map (fun crit =>
          if crit.id = (if b then arr.getD (s - 1) dfltCriterion
            else arr.getD s dfltCriterion).id
          then { crit with order := s - 1 } else crit))
        cs (by omega) (by omega) h3 (by omega)
        ((critKey_map_update arr _ (s - 1)).trans hkey)
      constructor
      · simp only [List.length_cons, hrec.1]
        omega
      · intro j hj
        cases j with
        | zero =>
          simp only [List.getD_cons_zero, Nat.add_zero]
          exact ⟨hk1, hk2⟩
        | succ j =>
          simp only [List.getD_cons_succ]
          have hj' : j < total - (s + 1) := by omega
          have h0 := hrec.2 j hj'
          have e1 : s + 1 - 1 + j = s - 1 + (j + 1) := by omega
          have e2 : s + 1 + j = s + (j + 1) := by omega
          rw [e1, e2] at h0
          exact h0
    · rw [handleOrderingChoice_last total ⟨s, arr⟩ _ hlt]
      dsimp only
      constructor
      · simp only [List.length_cons, List.length_nil]
        omega
      · intro j hj
        have hj0 : j = 0 := by omega
        subst hj0
        simp only [List.getD_cons_zero, Nat.add_zero]
        exact ⟨hk1, hk2⟩

/-- C6: over N criteria in insertion order, a completed prioritization
presents exactly N - 1 comparisons, and the k-th comparison (index j =
k - 1 here) is between the criteria at positions j and j + 1 of the
original criteria array, regardless of which criterion won any earlier
comparison: the working array is only ever updated in its order fields,
never reordered, so the comparison window advances purely positionally. -/
theorem ordering_pairs_positional (N : ℕ) (cs : List Criterion) (choices : List Bool)
    (hN : 2 ≤ N) (_hlen : cs.length = N) (hch : choices.length = N - 1) :
    (runOrdering N (startOrdering cs) choices).1.length = N - 1 ∧
    ∀ j < N - 1,
      critKey ((runOrdering N (startOrdering cs) choices).1.getD j
          (dfltCriterion, dfltCriterion)).1
        = critKey (cs.getD j dfltCriterion) ∧
      critKey ((runOrdering N (startOrdering cs) choices).1.getD j
          (dfltCriterion, dfltCriterion)).2
        = critKey (cs.getD (j + 1) dfltCriterion) := by
  have h := runOrdering_pairs N choices 1 cs cs (by omega) (by omega) hN (by omega) rfl
  refine ⟨h.1, fun j hj => ?_⟩
  have h0 := h.2 j hj
  have e1 : 1 - 1 + j = j := by omega
  have e2 : 1 + j = j + 1 := by omega
  rw [e1, e2] at h0
  exact h0

/-- Witness for C6 at three criteria with mixed choices: two comparisons,
the second being (Y, Z), the criteria at positions 1 and 2. -/
theorem ordering_pairs_positional_witness :
    (runOrdering 3 (startOrdering exCriteria) [false, true]).1.length = 2 ∧
    critKey ((runOrdering 3 (startOrdering exCriteria) [false, true]).1.getD 1
        (dfltCriterion, dfltCriterion)).1
      = critKey (exCriteria.getD 1 dfltCriterion) ∧
    critKey ((runOrdering 3 (startOrdering exCriteria) [false, true]).1.getD 1
        (dfltCriterion, dfltCriterion)).2
      = critKey (exCriteria.getD 2 dfltCriterion) := by
  have h := ordering_pairs_positional 3 exCriteria [false, true]
    (by omega) (by decide) (by decide)
  exact ⟨h.1, (h.2 1 (by omega)).1, (h.2 1 (by omega)).2⟩

/- ### Claim C10 -/

/-- Weight-erasing projection: two criterion lists whose images under this
map agree differ at most in their weight fields. -/
def clearWeight (c : Criterion) : Criterion := { c with weight := 0 }

theorem clearWeight_map_update (arr : List Criterion) (cid k : ℕ) :
    (arr.map (fun crit => if crit.id = cid then { crit with order := k } else crit)).map
        clearWeight
      = (arr.map clearWeight).map
          (fun crit => if crit.id = cid then { crit with order := k } else crit) := by
  induction arr with
  | nil => rfl
  | cons a as ih =>
    simp only [List.map_cons, ih]
    congr 1
    by_cases h : a.id = cid <;> simp [clearWeight, h]

theorem clearWeight_sortByOrder (l : List Criterion) :
    (sortByOrder l).map clearWeight = sortByOrder (l.map clearWeight) :=
  map_stableSort clearWeight orderLe orderLe (fun _ _ => rfl) l

theorem weight_set_congr (c₁ c₂ : Criterion) (h : clearWeight c₁ = clearWeight c₂) (w : ℚ) :
    { c₁ with weight := w } = { c₂ with weight := w } := by
  cases c₁
  cases c₂
  simp only [clearWeight, Criterion.mk.injEq] at h
  simp [h.1, h.2.1, h.2.2]

theorem mapIdxFrom_weight_congr (g : ℕ → ℚ) :
    ∀ (l₁ l₂ : List Criterion) (k : ℕ),
      l₁.map clearWeight = l₂.map clearWeight →
      mapIdxFrom k (fun i c => { c with weight := g i }) l₁
        = mapIdxFrom k (fun i c => { c with weight := g i }) l₂ := by
  intro l₁
  induction l₁ with
  | nil =>
    intro l₂ k h
    cases l₂ with
    | nil => rfl
    | cons b bs => simp at h
  | cons a as ih =>
    intro l₂ k h
    cases l₂ with
    | nil => simp at h
    | cons b bs =>
      simp only [List.map_cons, List.cons.injEq] at h
      simp only [mapIdxFrom]
      rw [weight_set_congr a b h.1, ih bs (k + 1) h.2]

theorem clearWeight_update_congr (l₁ l₂ : List Criterion) (c₁ c₂ k : ℕ)
    (hid : c₁ = c₂) (h : l₁.map clearWeight = l₂.map clearWeight) :
    (l₁.map (fun crit => if crit.id = c₁ then { crit with order := k } else crit)).map
        clearWeight
      = (l₂.map (fun crit => if crit.id = c₂ then { crit with order := k } else crit)).map
          clearWeight := by
  subst hid
  rw [clearWeight_map_update, clearWeight_map_update, h]

theorem assignWeights_congr (l₁ l₂ : List Criterion)
    (h : l₁.map clearWeight = l₂.map clearWeight) :
    assignWeights l₁ = assignWeights l₂ := by
  have hlen : l₁.length = l₂.length := by
    have h2 := congrArg List.length h
    simpa using h2
  unfold assignWeights
  rw [hlen]
  exact mapIdxFrom_weight_congr _ l₁ l₂ 0 h

/-- The ordering loop never reads a weight: two runs over states that
agree up to weights and start at the same step produce identical final
criteria lists (all weights are overwritten by the completion formula). -/
theorem runOrdering_weight_oblivious (total : ℕ) :
    ∀ (choices : List Bool) (s : ℕ) (arr₁ arr₂ : List Criterion),
      arr₁.map clearWeight = arr₂.map clearWeight →
      (runOrdering total ⟨s, arr₁⟩ choices).2 = (runOrdering total ⟨s, arr₂⟩ choices).2 := by
  intro choices
  induction choices with
  | nil => intro s arr₁ arr₂ _; rfl
  | cons b bs ih =>
    intro s arr₁ arr₂ harr
    simp only [runOrdering]
    have hp1 : clearWeight (arr₁.getD (s - 1) dfltCriterion)
        = clearWeight (arr₂.getD (s - 1) dfltCriterion) :=
      map_eq_getD clearWeight dfltCriterion arr₁ arr₂ harr (s - 1)
    have hp2 : clearWeight (arr₁.getD s dfltCriterion)
        = clearWeight (arr₂.getD s dfltCriterion) :=
      map_eq_getD clearWeight dfltCriterion arr₁ arr₂ harr s
    have hid : (if b then arr₁.getD (s - 1) dfltCriterion else arr₁.getD s dfltCriterion).id
        = (if b then arr₂.getD (s - 1) dfltCriterion else arr₂.getD s dfltCriterion).id := by
      cases b
      · simpa [clearWeight] using congrArg Criterion.id hp2
      · simpa [clearWeight] using congrArg Criterion.id hp1
    have hupd := clearWeight_update_congr arr₁ arr₂ _ _ (s - 1) hid harr
    by_cases hlt : s < total - 1
    · rw [handleOrderingChoice_lt total ⟨s, arr₁⟩ _ hlt,
        handleOrderingChoice_lt total ⟨s, arr₂⟩ _ hlt]
      dsimp only
      exact ih (s + 1) _ _ hupd
    · rw [handleOrderingChoice_last total ⟨s, arr₁⟩ _ hlt,
        handleOrderingChoice_last total ⟨s, arr₂⟩ _ hlt]
      dsimp only
      apply assignWeights_congr
      rw [clearWeight_sortByOrder, clearWeight_sortByOrder]
      congr 1
      exact clearWeight_update_congr _ _ _ _ (s - 1) hid hupd

/-- C10: the final weights depend only on the resulting rank order and the
criterion count.  Two pre-ordering criteria lists that agree except in
their weight fields (for example, weights edited with
updateCriterionWeight or taken from AI suggestions) yield identical final
criteria lists, weights included, under the same sequence of pairwise
choices: every pre-ordering weight is overwritten by the completion
formula and has no effect on the outcome. -/
theorem ordering_weights_independent (N : ℕ) (cs₁ cs₂ : List Criterion) (choices : List Bool)
    (h : cs₁.map clearWeight = cs₂.map clearWeight) :
    (runOrdering N (startOrdering cs₁) choices).2
      = (runOrdering N (startOrdering cs₂) choices).2 :=
  runOrdering_weight_oblivious N choices 1 cs₁ cs₂ h

/-- Criteria identical to exCriteria except for edited weight fields. -/
def exCriteriaWeighted : List Criterion :=
  [{ id := 1, name := "X", weight := 55, order := 0 },
   { id := 2, name := "Y", weight := 7, order := 1 },
   { id := 3, name := "Z", weight := 99, order := 2 }]

/-- Witness for C10: despite different pre-ordering weights, both runs end
in the same final criteria list. -/
theorem ordering_weights_independent_witness :
    exCriteriaWeighted.map clearWeight = exCriteria.map clearWeight ∧
    (runOrdering 3 (startOrdering exCriteriaWeighted) [true, false]).2
      = (runOrdering 3 (startOrdering exCriteria) [true, false]).2 := by
  have h : exCriteriaWeighted.map clearWeight = exCriteria.map clearWeight := by
    simp [exCriteriaWeighted, exCriteria, clearWeight]
  exact ⟨h, ordering_weights_independent 3 exCriteriaWeighted exCriteria [true, false] h⟩

/- ### Claim C7 -/

/-- Invariant: at most one ScoreEntry per (optionId, criterionId) pair. -/
def pairUnique (scores : List ScoreEntry) : Prop :=
  scores.Pairwise (fun a b => a.optionId ≠ b.optionId ∨ a.criterionId ≠ b.criterionId)

theorem updateScore_cons (s : ScoreEntry) (rest : List ScoreEntry) (o c : ℕ) (v : ℚ) :
    updateScore (s :: rest) o c v =
      if s.optionId = o ∧ s.criterionId = c
      then { optionId := o, criterionId := c, score := v } :: rest
      else s :: updateScore rest o c v := by
  unfold updateScore
  rw [List.findIdx?_cons]
  by_cases hs : s.optionId = o ∧ s.criterionId = c
  · rw [if_pos (decide_eq_true hs), if_pos hs]
    rfl
  · rw [if_neg (by simpa using hs), if_neg hs, List.findIdx?_succ]
    cases hfind : rest.findIdx? (fun e => decide (e.optionId = o ∧ e.criterionId = c)) with
    | none => rfl
    | some i => rfl

theorem getScore_cons (s : ScoreEntry) (rest : List ScoreEntry) (o c : ℕ) :
    getScore (s :: rest) o c =
      if s.optionId = o ∧ s.criterionId = c then s.score else getScore rest o c := by
  by_cases hs : s.optionId = o ∧ s.criterionId = c
  · simp [getScore, List.find?, hs]
  · simp [getScore, List.find?, hs]

theorem mem_updateScore (o c : ℕ) (v : ℚ) :
    ∀ (l : List ScoreEntry), ∀ x ∈ updateScore l o c v,
      x ∈ l ∨ x = { optionId := o, criterionId := c, score := v } := by
  intro l
  induction l with
  | nil =>
    intro x hx
    simp only [updateScore, List.findIdx?_nil, List.nil_append] at hx
    exact Or.inr (by simpa using hx)
  | cons s rest ih =>
    intro x hx
    rw [updateScore_cons] at hx
    split at hx
    · rcases List.mem_cons.mp hx with rfl | hx
      · exact Or.inr rfl
      · exact Or.inl (List.mem_cons_of_mem s hx)
    · rcases List.mem_cons.mp hx with rfl | hx
      · exact Or.inl (List.mem_cons_self _ _)
      · rcases ih x hx with h | h
        · exact Or.inl (List.mem_cons_of_mem s h)
        · exact Or.inr h

/-- C7: the ScoreEntry collection keeps at most one entry per
(optionId, criterionId) pair, and updateScore preserves that invariant:
a write for a pair that already has an entry replaces it in place and
keeps the length, a write for a new pair appends exactly one entry, and
in both cases the pair subsequently reads back the new score
(last-write-wins). -/
theorem updateScore_upsert (scores : List ScoreEntry) (o c : ℕ) (v : ℚ)
    (h : pairUnique scores) :
    pairUnique (updateScore scores o c v) ∧
    ((∃ e ∈ scores, e.optionId = o ∧ e.criterionId = c) →
      (updateScore scores o c v).length = scores.length) ∧
    ((¬ ∃ e ∈ scores, e.optionId = o ∧ e.criterionId = c) →
      updateScore scores o c v
        = scores ++ [{ optionId := o, criterionId := c, score := v }]) ∧
    getScore (updateScore scores o c v) o c = v := by
  induction scores with
  | nil =>
    refine ⟨?_, ?_, ?_, ?_⟩
    · simp [pairUnique, updateScore]
    · intro hex; simp at hex
    · intro _; simp [updateScore]
    · simp [updateScore, getScore, List.find?]
  | cons s rest ih =>
    have hcons := List.pairwise_cons.mp h
    obtain ⟨ih1, ih2, ih3, ih4⟩ := ih hcons.2
    rw [updateScore_cons]
    by_cases hs : s.optionId = o ∧ s.criterionId = c
    · rw [if_pos hs]
      refine ⟨?_, ?_, ?_, ?_⟩
      · refine List.pairwise_cons.mpr ⟨?_, hcons.2⟩
        intro b hb
        have hsb := hcons.1 b hb
        rw [hs.1, hs.2] at hsb
        simpa using hsb
      · intro _; simp
      · intro hnex; exact absurd ⟨s, List.mem_cons_self s rest, hs⟩ hnex
      · rw [getScore_cons]; simp
    · rw [if_neg hs]
      refine ⟨?_, ?_, ?_, ?_⟩
      · refine List.pairwise_cons.mpr ⟨?_, ih1⟩
        intro b hb
        rcases mem_updateScore o c v rest b hb with hmem | rfl
        · exact hcons.1 b hmem
        · rcases not_and_or.mp hs with h1 | h1
          · exact Or.inl (by simpa using h1)
          · exact Or.inr (by simpa using h1)
      · intro hex
        rcases hex with ⟨e, he, hec⟩
        rcases List.mem_cons.mp he with rfl | he
        · exact absurd hec hs
        · simp [ih2 ⟨e, he, hec⟩]
      · intro hnex
        have hnrest : ¬ ∃ e ∈ rest, e.optionId = o ∧ e.criterionId = c := by
          intro he
          rcases he with ⟨e, he, hec⟩
          exact hnex ⟨e, List.mem_cons_of_mem s he, hec⟩
        rw [ih3 hnrest]
        simp
      · rw [getScore_cons, if_neg hs]
        exact ih4

/-- Witness for C7 at the worked example scores: overwriting the existing
entry for option 1 and criterion 10 keeps the collection size at 4,
preserves pair uniqueness, and reads back the new score 6. -/
theorem updateScore_upsert_witness :
    pairUnique exDecision.scores ∧
    pairUnique (updateScore exDecision.scores 1 10 6) ∧
    (updateScore exDecision.scores 1 10 6).length = exDecision.scores.length ∧
    getScore (updateScore exDecision.scores 1 10 6) 1 10 = 6 := by
  have hp : pairUnique exDecision.scores := by unfold pairUnique; decide
  have h := updateScore_upsert exDecision.scores 1 10 6 hp
  refine ⟨hp, h.1, h.2.1 ?_, h.2.2.2⟩
  exact ⟨{ optionId := 1, criterionId := 10, score := 8 },
    List.mem_cons_self _ _, rfl, rfl⟩

/- ### Claim C8 -/

/-- The add and remove operations of the options and criteria steps; each
add records the Date.now millisecond it observed, which becomes the id. -/
inductive WizardOp where
  | addOpt (now : ℕ) (name : String)
  | addSuggOpt (now : ℕ) (name : String)
  | addCrit (now : ℕ) (name : String)
  | addSuggCrit (now : ℕ) (name : String) (weight : ℚ)
  | rmOpt (id : ℕ)
  | rmCrit (id : ℕ)
deriving DecidableEq

/-- Dispatch one operation to the corresponding App.tsx handler. -/
def applyOp (d : Decision) : WizardOp → Decision
  | WizardOp.addOpt now name => addOption d now name
  | WizardOp.addSuggOpt now name => addSuggestedOption d now name
  | WizardOp.addCrit now name => addCriterion d now name
  | WizardOp.addSuggCrit now name weight => addSuggestedCriterion d now name weight
  | WizardOp.rmOpt id => removeOption d id
  | WizardOp.rmCrit id => removeCriterion d id

/-- The Date.now timestamp an operation observes, when it is an add. -/
def opNow : WizardOp → Option ℕ
  | WizardOp.addOpt now _ => some now
  | WizardOp.addSuggOpt now _ => some now
  | WizardOp.addCrit now _ => some now
  | WizardOp.addSuggCrit now _ _ => some now
  | WizardOp.rmOpt _ => none
  | WizardOp.rmCrit _ => none

/-- Run a session operation sequence from a starting decision state. -/
def runOps (d : Decision) (ops : List WizardOp) : Decision := ops.foldl applyOp d

theorem nodup_id_append_option (opts : List DOption) (now : ℕ) (name : String)
    (h : (opts.map DOption.id).Nodup) (hfo : ∀ o ∈ opts, o.id ≠ now) :
    ((opts ++ [({ id := now, name := name } : DOption)]).map DOption.id).Nodup := by
  rw [List.map_append]
  refine List.nodup_append.mpr ⟨h, by simp, ?_⟩
  intro a ha hb
  simp only [List.map_cons, List.map_nil, List.mem_singleton] at hb
  subst hb
  rcases List.mem_map.mp ha with ⟨o, ho, hoe⟩
  exact hfo o ho hoe

theorem nodup_id_append_criterion (crits : List Criterion) (now : ℕ) (name : String)
    (weight : ℚ) (ord : ℕ)
    (h : (crits.map Criterion.id).Nodup) (hfc : ∀ x ∈ crits, x.id ≠ now) :
    ((crits ++ [({ id := now, name := name, weight := weight, order := ord } : Criterion)]).map
        Criterion.id).Nodup := by
  rw [List.map_append]
  refine List.nodup_append.mpr ⟨h, by simp, ?_⟩
  intro a ha hb
  simp only [List.map_cons, List.map_nil, List.mem_singleton] at hb
  subst hb
  rcases List.mem_map.mp ha with ⟨x, hx, hxe⟩
  exact hfc x hx hxe

/-- Identifier uniqueness is preserved across any operation sequence whose
observed timestamps are pairwise distinct and fresh for the current state. -/
theorem runOps_ids_nodup_general :
    ∀ (ops : List WizardOp) (d : Decision),
      (ops.filterMap opNow).Nodup →
      (d.options.map DOption.id).Nodup →
      (d.criteria.map Criterion.id).Nodup →
      (∀ t ∈ ops.filterMap opNow,
        (∀ o ∈ d.options, o.id ≠ t) ∧ (∀ cr ∈ d.criteria, cr.id ≠ t)) →
      ((runOps d ops).options.map DOption.id).Nodup ∧
      ((runOps d ops).criteria.map Criterion.id).Nodup := by
  intro ops
  induction ops with
  | nil =>
    intro d _ h1 h2 _
    exact ⟨h1, h2⟩
  | cons op rest ih =>
    intro d hnow h1 h2 hfresh
    have hrun : runOps d (op :: rest) = runOps (applyOp d op) rest := rfl
    rw [hrun]
    cases op with
    | addOpt now name =>
      have hfm : List.filterMap opNow (WizardOp.addOpt now name :: rest)
          = now :: List.filterMap opNow rest := by simp [opNow]
      rw [hfm] at hnow hfresh
      have hn := List.nodup_cons.mp hnow
      refine ih (addOption d now name)
        hn.2
        (nodup_id_append_option d.options now name h1
          (hfresh now (List.mem_cons_self _ _)).1)
        h2 ?_
      intro t ht
      refine ⟨?_, (hfresh t (List.mem_cons_of_mem _ ht)).2⟩
      intro o ho
      rcases List.mem_append.mp ho with ho | ho
      · exact (hfresh t (List.mem_cons_of_mem _ ht)).1 o ho
      · have ho' : o = { id := now, name := name } := by simpa using ho
        rw [ho']
        intro he
        have he' : now = t := he
        exact hn.1 (by rw [he']; exact ht)
    | addSuggOpt now name =>
      have hfm : List.filterMap opNow (WizardOp.addSuggOpt now name :: rest)
          = now :: List.filterMap opNow rest := by simp [opNow]
      rw [hfm] at hnow hfresh
      have hn := List.nodup_cons.mp hnow
      refine ih (addSuggestedOption d now name)
        hn.2
        (nodup_id_append_option d.options now name h1
          (hfresh now (List.mem_cons_self _ _)).1)
        h2 ?_
      intro t ht
      refine ⟨?_, (hfresh t (List.mem_cons_of_mem _ ht)).2⟩
      intro o ho
      rcases List.mem_append.mp ho with ho | ho
      · exact (hfresh t (List.mem_cons_of_mem _ ht)).1 o ho
      · have ho' : o = { id := now, name := name } := by simpa using ho
        rw [ho']
        intro he
        have he' : now = t := he
        exact hn.1 (by rw [he']; exact ht)
    | addCrit now name =>
      have hfm : List.filterMap opNow (WizardOp.addCrit now name :: rest)
          = now :: List.filterMap opNow rest := by simp [opNow]
      rw [hfm] at hnow hfresh
      have hn := List.nodup_cons.mp hnow
      refine ih (addCriterion d now name)
        hn.2 h1
        (nodup_id_append_criterion d.criteria now name 0 d.criteria.length h2
          (hfresh now (List.mem_cons_self _ _)).2)
        ?_
      intro t ht
      refine ⟨(hfresh t (List.mem_cons_of_mem _ ht)).1, ?_⟩
      intro cr hcr
      rcases List.mem_append.mp hcr with hcr | hcr
      · exact (hfresh t (List.mem_cons_of_mem _ ht)).2 cr hcr
      · have hcr' : cr = { id := now, name := name, weight := 0, order := d.criteria.length } := by
          simpa using hcr
        rw [hcr']
        intro he
        have he' : now = t := he
        exact hn.1 (by rw [he']; exact ht)
    | addSuggCrit now name weight =>
      have hfm : List.filterMap opNow (WizardOp.addSuggCrit now name weight :: rest)
          = now :: List.filterMap opNow rest := by simp [opNow]
      rw [hfm] at hnow hfresh
      have hn := List.nodup_cons.mp hnow
      refine ih (addSuggestedCriterion d now name weight)
        hn.2 h1
        (nodup_id_append_criterion d.criteria now name weight d.criteria.length h2
          (hfresh now (List.mem_cons_self _ _)).2)
        ?_
      intro t ht
      refine ⟨(hfresh t (List.mem_cons_of_mem _ ht)).1, ?_⟩
      intro cr hcr
      rcases List.mem_append.mp hcr with hcr | hcr
      · exact (hfresh t (List.mem_cons_of_mem _ ht)).2 cr hcr
      · have hcr' : cr = { id := now, name := name, weight := weight, order := d.criteria.length } := by
          simpa using hcr
        rw [hcr']
        intro he
        have he' : now = t := he
        exact hn.1 (by rw [he']; exact ht)
    | rmOpt rid =>
      have hfm : List.filterMap opNow (WizardOp.rmOpt rid :: rest)
          = List.filterMap opNow rest := by simp [opNow]
      rw [hfm] at hnow hfresh
      refine ih (removeOption d rid) hnow
        (List.Nodup.sublist (List.Sublist.map DOption.id (List.filter_sublist _)) h1)
        h2 ?_
      intro t ht
      exact ⟨fun o ho => (hfresh t ht).1 o (List.mem_of_mem_filter ho),
        (hfresh t ht).2⟩
    | rmCrit rid =>
      have hfm : List.filterMap opNow (WizardOp.rmCrit rid :: rest)
          = List.filterMap opNow rest := by simp [opNow]
      rw [hfm] at hnow hfresh
      refine ih (removeCriterion d rid) hnow h1
        (List.Nodup.sublist (List.Sublist.map Criterion.id (List.filter_sublist _)) h2)
        ?_
      intro t ht
      exact ⟨(hfresh t ht).1,
        fun cr hcr => (hfresh t ht).2 cr (List.mem_of_mem_filter hcr)⟩

/-- C8 (amended): within one session starting from the empty decision,
option identifiers stay pairwise distinct and criterion identifiers stay
pairwise distinct across any sequence of add and remove operations,
PROVIDED the Date.now timestamps observed by the add operations are
pairwise distinct.  The code enforces nothing itself: the id is the raw
millisecond timestamp, so two adds in the same millisecond collide (see
addOption_same_timestamp_duplicate). -/
theorem wizard_ids_nodup (ops : List WizardOp)
    (hnow : (ops.filterMap opNow).Nodup) :
    ((runOps emptyDecision ops).options.map DOption.id).Nodup ∧
    ((runOps emptyDecision ops).criteria.map Criterion.id).Nodup :=
  runOps_ids_nodup_general ops emptyDecision hnow (by simp [emptyDecision])
    (by simp [emptyDecision])
    (fun t _ => ⟨fun o ho => absurd ho (by simp [emptyDecision]),
      fun cr hcr => absurd hcr (by simp [emptyDecision])⟩)

/-- C8 counterexample: two addOption calls observing the same Date.now
value 5 (two clicks within one millisecond) produce two options that both
carry id 5, so option identifiers are not pairwise distinct. -/
theorem addOption_same_timestamp_duplicate :
    ((addOption (addOption emptyDecision 5 "A") 5 "B").options.map DOption.id) = [5, 5] ∧
    ¬ ((addOption (addOption emptyDecision 5 "A") 5 "B").options.map DOption.id).Nodup :=
  ⟨by decide, by decide⟩

/-- Operation sequence with pairwise distinct timestamps. -/
def exOps : List WizardOp :=
  [WizardOp.addOpt 1 "A", WizardOp.addSuggOpt 2 "B", WizardOp.addCrit 3 "C",
   WizardOp.addSuggCrit 4 "D" 40, WizardOp.rmOpt 1]

/-- Witness for C8 at a concrete operation sequence with distinct
timestamps: both id lists end up without duplicates. -/
theorem wizard_ids_nodup_witness :
    (exOps.filterMap opNow).Nodup ∧
    ((runOps emptyDecision exOps).options.map DOption.id).Nodup ∧
    ((runOps emptyDecision exOps).criteria.map Criterion.id).Nodup := by
  have h := wizard_ids_nodup exOps (by decide)
  exact ⟨by decide, h.1, h.2⟩

end DecisionTool
